import Mathlib

/-!
Shallow embedding of `src/techlead_app.py` (grouping of developer interns
into groups of 5 and assignment of groups to tech leads).

Modelling conventions:
* A CSV row is a `Row` with the five roster fields; the assignment logic
  reads only `affiliation` and `email`.
* `compute_assignments` begins with a seeded shuffle
  (`devs.sample(frac=1, random_state=42)`), a fixed permutation of the
  input.  All claims are universally quantified over rosters, and a fixed
  permutation maps rosters to rosters bijectively, so the shuffle is
  absorbed into the quantified input list and the embedding starts from
  the already-shuffled order.
* `assignments = defaultdict(list)` is embedded as `DMap`, an
  insertion-ordered association list.  Crucially, *reading*
  `assignments[k]` on a Python defaultdict inserts the key `k` with `[]`
  when it is absent; `dGet` reproduces this by returning the (possibly
  extended) map alongside the value.
* `pandas.groupby` iterates group keys in sorted order and preserves the
  within-group row order; this is embedded as sorting the deduplicated
  affiliation keys (`sortStrings`) and `List.filter`.
* `list.remove(x)` removes the first occurrence, matching `List.erase`.
-/

namespace TechleadApp

/-- `s.strip().lower()`, the normalization applied to emails and
affiliations throughout the script: drop leading and trailing
whitespace, then lowercase each character (modelled character-wise so
that it evaluates). -/
def normalize (s : String) : String :=
  ⟨(((s.data.dropWhile Char.isWhitespace).reverse.dropWhile
      Char.isWhitespace).reverse).map Char.toLower⟩

/-- One roster row (fields: Full Name, Affiliation, Gender, Contact
Number, Email Address). -/
structure Row where
  fullName : String
  affiliation : String
  gender : String
  contact : String
  email : String
deriving DecidableEq, Repr

/-- A group is a slice of the developer roster (`dev_group.iloc[i:i+5]`). -/
abbrev Group := List Row

/-- The `assignments` defaultdict: tech-lead email ↦ list of groups,
keys in insertion order. -/
structure DMap where
  entries : List (String × List Group)
deriving DecidableEq, Repr

/-- Reading `assignments[k]`: returns the stored list, inserting the key
with `[]` first when absent (defaultdict semantics). -/
def dGet (m : DMap) (k : String) : List Group × DMap :=
  match m.entries.lookup k with
  | some v => (v, m)
  | none => ([], ⟨m.entries ++ [(k, [])]⟩)

/-- Replace the value at the first occurrence of key `k` (append at the
end when absent), as Python dict assignment does. -/
def setEntry (k : String) (v : List Group) :
    List (String × List Group) → List (String × List Group)
  | [] => [(k, v)]
  | (k', v') :: rest =>
    if k' == k then (k, v) :: rest else (k', v') :: setEntry k v rest

def dSet (m : DMap) (k : String) (v : List Group) : DMap := ⟨setEntry k v m.entries⟩

/-- The row-normalization applied to a developer row (affiliation only,
line 42). -/
def normAff (d : Row) : Row := { d with affiliation := normalize d.affiliation }

/-- The row-normalization applied to a tech-lead row (affiliation and
email, lines 43-44). -/
def normTech (t : Row) : Row :=
  { t with affiliation := normalize t.affiliation, email := normalize t.email }

/-- Normalization pass on the developer roster
(`devs['Affiliation'] = devs['Affiliation'].str.strip().str.lower()`). -/
def normDevs (devs : List Row) : List Row := devs.map normAff

/-- Normalization pass on the tech-lead roster (affiliation and email). -/
def normTechs (techs : List Row) : List Row := techs.map normTech

/-- Insert into a ≤-sorted list of strings. -/
def insertSorted (s : String) : List String → List String
  | [] => [s]
  | x :: xs => if s ≤ x then s :: x :: xs else x :: insertSorted s xs

/-- Ascending sort, embedding the sorted key order of `pandas.groupby`. -/
def sortStrings (l : List String) : List String := l.foldr insertSorted []

/-- The affiliation keys of `devs.groupby("Affiliation")`, sorted. -/
def colleges (devs : List Row) : List String :=
  sortStrings ((normDevs devs).map (fun d => d.affiliation)).dedup

/-- `[dev_group.iloc[i:i+GROUP_SIZE] for i in range(0, len(dev_group), GROUP_SIZE)]`:
chunk `i` is the slice `[5*i, 5*i+5)`, and `range(0, len, 5)` has
`⌈len/5⌉ = (len+4)/5` elements. -/
def chunks (l : List Row) : List Group :=
  (List.range ((l.length + 4) / 5)).map fun i => (l.drop (5 * i)).take 5

/-- The partitioner's groups for one affiliation: chunk the affiliation's
rows of the (normalized) roster. -/
def collegeGroups (devs : List Row) (c : String) : List Group :=
  chunks ((normDevs devs).filter fun d => d.affiliation == c)

/-- `techs_in_college` for one affiliation. -/
def collegeTechs (techs : List Row) (c : String) : List Row :=
  (normTechs techs).filter fun t => t.affiliation == c

/-- Body of the `while tech_index < len(techs_in_college)` loop of
phase 1, recursing over the suffix `techsC.drop ti` (whose head is
`techs_in_college.iloc[tech_index]`): try to place `g`; returns
(assigned?, new tech_index, updated assignments).  When the current
lead has capacity the group is appended and, if the lead just reached 5
groups, `tech_index` advances; otherwise `tech_index` advances and the
scan continues. -/
def whileAssignGo (g : Group) : List Row → Nat → DMap → Bool × Nat × DMap
  | [], ti, m => (false, ti, m)
  | t :: rest, ti, m =>
    let vm := dGet m t.email
    if vm.fst.length < 5 then
      (true, if vm.fst.length + 1 == 5 then ti + 1 else ti,
        dSet vm.snd t.email (vm.fst ++ [g]))
    else whileAssignGo g rest (ti + 1) vm.snd

/-- The phase-1 `while` loop starting at `tech_index = ti`. -/
def whileAssign (techsC : List Row) (g : Group) (ti : Nat) (m : DMap) :
    Bool × Nat × DMap :=
  whileAssignGo g (techsC.drop ti) ti m

/-- The `for group in intern_groups` loop of phase 1 for one college.
`allGroups` is the full `intern_groups` list, needed by the
`leftout_groups.extend(intern_groups); break` branch taken when the
college has no tech leads. -/
def processGroups (techsC : List Row) (allGroups : List Group) :
    List Group → Nat → DMap → List Group → DMap × List Group
  | [], _, m, lo => (m, lo)
  | g :: rest, ti, m, lo =>
    if g.length < 5 then
      processGroups techsC allGroups rest ti m (lo ++ [g])
    else if techsC.isEmpty then
      (m, lo ++ allGroups)
    else
      match whileAssign techsC g ti m with
      | (assigned, ti', m') =>
        if assigned then processGroups techsC allGroups rest ti' m' lo
        else processGroups techsC allGroups rest ti' m' (lo ++ [g])

/-- Phase 1: the college-wise assignment loop.  Returns the assignments
map and `leftout_groups`. -/
def phase1 (devs techs : List Row) : DMap × List Group :=
  (colleges devs).foldl
    (fun acc c =>
      processGroups (collegeTechs techs c) (collegeGroups devs c)
        (collegeGroups devs c) 0 acc.fst acc.snd)
    (⟨[]⟩, [])

/-- Line 86: `leftover_techs = [e for e in techs['Email Address'] if
len(assignments[e.strip().lower()]) < 5]`.  Each membership test reads
the defaultdict and therefore inserts the key. -/
def scanLeftover (m : DMap) : List Row → DMap × List String
  | [] => (m, [])
  | t :: rest =>
    let vm := dGet m (normalize t.email)
    let rec' := scanLeftover vm.snd rest
    if vm.fst.length < 5 then (rec'.fst, normalize t.email :: rec'.snd)
    else (rec'.fst, rec'.snd)

/-- The inner `for email in leftover_techs` loop of phase 2 for one
group: first-fit placement; a lead reaching capacity 5 is removed from
`leftover_techs` (first occurrence, as `list.remove`). -/
def phase2Group (g : Group) : DMap → List String → List String → DMap × List String
  | m, lts, [] => (m, lts)
  | m, lts, e :: rest =>
    let vm := dGet m e
    if vm.fst.length < 5 then
      let m2 := dSet vm.snd e (vm.fst ++ [g])
      if vm.fst.length + 1 == 5 then (m2, lts.erase e) else (m2, lts)
    else phase2Group g vm.snd lts rest

/-- Phase 2: `for group in assignable_leftover_groups`. -/
def phase2 : List Group → DMap → List String → DMap × List String
  | [], m, lts => (m, lts)
  | g :: gs, m, lts =>
    match phase2Group g m lts lts with
    | (m', lts') => phase2 gs m' lts'

/-- All groups stored in the map, across all tech leads. -/
def allGroupsOf (m : DMap) : List Group := (m.entries.map Prod.snd).flatten

/-- `all_assigned_dev_emails`: normalized emails of every intern in every
assigned group. -/
def assignedEmails (m : DMap) : List String :=
  (allGroupsOf m).flatten.map fun d => normalize d.email

/-- `assignments.keys()`. -/
def keysOf (m : DMap) : List String := m.entries.map Prod.fst

/-- `compute_assignments(devs, techs)`: returns the assignments map, the
unassigned developers and the unassigned tech leads. -/
def computeAssignments (devs techs : List Row) : DMap × List Row × List Row :=
  let dN := normDevs devs
  let tN := normTechs techs
  let p1 := phase1 devs techs
  let sc := scanLeftover p1.fst tN
  let assignable := p1.snd.filter fun g => g.length == 5
  let p2 := phase2 assignable sc.fst sc.snd
  let unassignedDevs :=
    dN.filter fun d => !((assignedEmails p2.fst).contains (normalize d.email))
  let unassignedTechs :=
    tN.filter fun t => !((keysOf p2.fst).contains (normalize t.email))
  (p2.fst, unassignedDevs, unassignedTechs)

/-- The lookup UI's "not found" condition (line 219/303):
`email_input in assignments` is key membership (the `in` operator does
not insert into a defaultdict). -/
def lookupNotFound (m : DMap) (e : String) : Bool := !(keysOf m).contains e

/-- Lines 145-151: with no persisted status table, every unique
(normalized) roster email is mapped to `True` (Active). -/
def initInternStatuses (devs : List Row) : List (String × Bool) :=
  ((devs.map fun d => normalize d.email).dedup).map fun e => (e, true)

/-- Line 278: `intern_statuses.get(email, True)` — status lookup with
Active as default. -/
def statusLookup (statuses : List (String × Bool)) (e : String) : Bool :=
  (statuses.lookup e).getD true

/-- All groups the partitioner forms, across all affiliations (complete
and incomplete). -/
def partitionGroups (devs : List Row) : List Group :=
  ((colleges devs).map fun c => collegeGroups devs c).flatten

/-- Normalized emails of the members of a group. -/
def emailsOf (g : Group) : List String := g.map fun d => normalize d.email

/-- A predicate holding of every stored list of groups. -/
def EntryInv (Q : List Group → Prop) (m : DMap) : Prop := ∀ p ∈ m.entries, Q p.snd

/-- Occurrences of a group among all assigned groups of the map. -/
def cntG (x : Group) (m : DMap) : Nat := (allGroupsOf m).count x

/-- A concrete tech-lead row used to instantiate the theorems. -/
def wLead : Row := ⟨"Lia", "x", "f", "0", "l@x"⟩

/-- A concrete five-intern roster of affiliation "x". -/
def wDevs : List Row :=
  [⟨"Ann", "x", "f", "1", "a@x"⟩, ⟨"Bob", "x", "m", "2", "b@x"⟩,
   ⟨"Cam", "x", "f", "3", "c@x"⟩, ⟨"Dan", "x", "m", "4", "d@x"⟩,
   ⟨"Eve", "x", "f", "5", "e@x"⟩]

/-- A concrete twelve-intern roster of affiliation "x" (spec example). -/
def devs12 : List Row :=
  (List.range 12).map fun n =>
    ⟨"Dev" ++ toString n, "x", "f", "0", "d" ++ toString n ++ "@x"⟩

/-! ### Association-list (defaultdict) lemmas -/

theorem mem_setEntry {k : String} {v : List Group}
    {es : List (String × List Group)} {p : String × List Group}
    (h : p ∈ setEntry k v es) : p = (k, v) ∨ p ∈ es := by
  induction es with
  | nil => simpa [setEntry] using h
  | cons q rest ih =>
    obtain ⟨k', v'⟩ := q
    rw [setEntry] at h
    split at h
    · rcases List.mem_cons.mp h with h | h
      · exact Or.inl h
      · exact Or.inr (List.mem_cons_of_mem _ h)
    · rcases List.mem_cons.mp h with h | h
      · rw [h]; exact Or.inr (List.mem_cons_self _ _)
      · rcases ih h with h' | h'
        · exact Or.inl h'
        · exact Or.inr (List.mem_cons_of_mem _ h')

theorem mem_dGet_snd {m : DMap} {k : String} {p : String × List Group}
    (h : p ∈ (dGet m k).snd.entries) : p = (k, []) ∨ p ∈ m.entries := by
  unfold dGet at h
  cases hl : m.entries.lookup k with
  | some v => rw [hl] at h; exact Or.inr h
  | none =>
    rw [hl] at h
    simp only [List.mem_append, List.mem_singleton] at h
    tauto

theorem lookup_some_value {es : List (String × List Group)} {k : String}
    {v : List Group} (h : es.lookup k = some v) : ∃ k', (k', v) ∈ es := by
  induction es with
  | nil => simp [List.lookup] at h
  | cons q rest ih =>
    obtain ⟨k', v'⟩ := q
    rw [List.lookup] at h
    split at h
    · obtain rfl : v' = v := Option.some.inj h
      exact ⟨k', List.mem_cons_self _ _⟩
    · obtain ⟨k'', hk''⟩ := ih h
      exact ⟨k'', List.mem_cons_of_mem _ hk''⟩

theorem contains_iff_mem {α : Type} [BEq α] [LawfulBEq α] {l : List α}
    {x : α} : l.contains x = true ↔ x ∈ l := List.elem_iff

theorem count_le_one_of_nodup {α : Type} [BEq α] [LawfulBEq α]
    {l : List α} (h : l.Nodup) (x : α) : l.count x ≤ 1 := by
  induction l with
  | nil => simp
  | cons a rest ih =>
    rw [List.count_cons]
    have hna := (List.nodup_cons.mp h).1
    have hrest := ih (List.nodup_cons.mp h).2
    by_cases hxa : x = a
    · subst hxa
      have h0 : rest.count x = 0 := List.count_eq_zero.mpr hna
      simp [h0]
    · have hb : (a == x) = false := beq_eq_false_iff_ne.mpr (Ne.symm hxa)
      rw [hb]
      simpa using hrest

/-! ### Value invariants preserved by the assignment operations -/

theorem entryInv_dGet {Q : List Group → Prop} {m : DMap} {k : String}
    (hnil : Q []) (hm : EntryInv Q m) : EntryInv Q (dGet m k).snd := by
  intro p hp
  rcases mem_dGet_snd hp with h | h
  · rw [h]; exact hnil
  · exact hm p h

theorem q_dGet_fst {Q : List Group → Prop} {m : DMap} {k : String}
    (hnil : Q []) (hm : EntryInv Q m) : Q (dGet m k).fst := by
  unfold dGet
  cases hl : m.entries.lookup k with
  | some v =>
    obtain ⟨k', hk'⟩ := lookup_some_value hl
    exact hm (k', v) hk'
  | none => exact hnil

theorem entryInv_assign {Q : List Group → Prop} {m : DMap} {k : String}
    {w : List Group} (hw : Q w) (hnil : Q [])
    (hm : EntryInv Q m) : EntryInv Q (dSet (dGet m k).snd k w) := by
  intro p hp
  rcases mem_setEntry hp with h | h
  · rw [h]; exact hw
  · exact entryInv_dGet hnil hm p h

theorem entryInv_whileAssignGo {Q : List Group → Prop} {g : Group}
    (hnil : Q []) (happ : ∀ v, Q v → v.length < 5 → Q (v ++ [g])) :
    ∀ (rest : List Row) (ti : Nat) (m : DMap), EntryInv Q m →
      EntryInv Q (whileAssignGo g rest ti m).snd.snd := by
  intro rest
  induction rest with
  | nil => intro ti m hm; exact hm
  | cons t rest ih =>
    intro ti m hm
    rw [whileAssignGo]
    by_cases hlt : (dGet m t.email).fst.length < 5
    · simp only [hlt, if_pos]
      exact entryInv_assign (happ _ (q_dGet_fst hnil hm) hlt) hnil hm
    · simp only [hlt, if_neg, not_false_iff]
      exact ih _ _ (entryInv_dGet hnil hm)

theorem entryInv_processGroups {Q : List Group → Prop} {techsC : List Row}
    {allG : List Group} (hnil : Q [])
    (happ : ∀ v g, ¬ g.length < 5 → Q v → v.length < 5 → Q (v ++ [g])) :
    ∀ (gs : List Group) (ti : Nat) (m : DMap) (lo : List Group),
      EntryInv Q m → EntryInv Q (processGroups techsC allG gs ti m lo).fst := by
  intro gs
  induction gs with
  | nil => intro ti m lo hm; exact hm
  | cons g rest ih =>
    intro ti m lo hm
    rw [processGroups]
    by_cases hlen : g.length < 5
    · simp only [hlen, if_pos]
      exact ih _ _ _ hm
    · simp only [hlen, if_neg, not_false_iff]
      by_cases hte : techsC.isEmpty
      · simp only [hte, if_pos]; exact hm
      · simp only [hte, Bool.false_eq_true, if_neg, not_false_iff]
        have hw : EntryInv Q (whileAssign techsC g ti m).snd.snd :=
          entryInv_whileAssignGo hnil (fun v hv hlt => happ v g hlen hv hlt) _ _ _ hm
        rcases hass : whileAssign techsC g ti m with ⟨a, ti', m'⟩
        rw [hass] at hw
        cases a with
        | true => simpa using ih _ _ _ hw
        | false => simpa using ih _ _ _ hw

theorem entryInv_scanLeftover {Q : List Group → Prop} (hnil : Q []) :
    ∀ (ts : List Row) (m : DMap), EntryInv Q m →
      EntryInv Q (scanLeftover m ts).fst := by
  intro ts
  induction ts with
  | nil => intro m hm; exact hm
  | cons t rest ih =>
    intro m hm
    rw [scanLeftover]
    by_cases hlt : (dGet m (normalize t.email)).fst.length < 5 <;>
      simp only [hlt, if_pos, if_neg, not_false_iff] <;>
      exact ih _ (entryInv_dGet hnil hm)

theorem entryInv_phase2Group {Q : List Group → Prop} {g : Group}
    (hnil : Q []) (happ : ∀ v, Q v → v.length < 5 → Q (v ++ [g])) :
    ∀ (rem : List String) (m : DMap) (lts : List String), EntryInv Q m →
      EntryInv Q (phase2Group g m lts rem).fst := by
  intro rem
  induction rem with
  | nil => intro m lts hm; exact hm
  | cons e rest ih =>
    intro m lts hm
    rw [phase2Group]
    by_cases hlt : (dGet m e).fst.length < 5
    · simp only [hlt, if_pos]
      by_cases h5 : (dGet m e).fst.length + 1 == 5 <;>
        simp only [h5, if_pos, if_neg, Bool.false_eq_true, not_false_iff] <;>
        exact entryInv_assign (happ _ (q_dGet_fst hnil hm) hlt) hnil hm
    · simp only [hlt, if_neg, not_false_iff]
      exact ih _ _ (entryInv_dGet hnil hm)

theorem entryInv_phase2 {Q : List Group → Prop} (hnil : Q []) :
    ∀ (gs : List Group) (m : DMap) (lts : List String),
      (∀ g ∈ gs, ∀ v, Q v → v.length < 5 → Q (v ++ [g])) →
      EntryInv Q m → EntryInv Q (phase2 gs m lts).fst := by
  intro gs
  induction gs with
  | nil => intro m lts _ hm; exact hm
  | cons g rest ih =>
    intro m lts hgs hm
    rw [phase2]
    rcases hpg : phase2Group g m lts lts with ⟨m', lts'⟩
    have h1 : EntryInv Q m' := by
      have := entryInv_phase2Group hnil
        (hgs g (List.mem_cons_self _ _)) lts m lts hm
      rwa [hpg] at this
    exact ih _ _ (fun g' hg' => hgs g' (List.mem_cons_of_mem _ hg')) h1

theorem entryInv_phase1 {Q : List Group → Prop} (hnil : Q [])
    (happ : ∀ v g, ¬ g.length < 5 → Q v → v.length < 5 → Q (v ++ [g]))
    (devs techs : List Row) : EntryInv Q (phase1 devs techs).fst := by
  unfold phase1
  have hgen : ∀ (cs : List String) (acc : DMap × List Group), EntryInv Q acc.fst →
      EntryInv Q ((cs.foldl (fun acc c =>
        processGroups (collegeTechs techs c) (collegeGroups devs c)
          (collegeGroups devs c) 0 acc.fst acc.snd) acc)).fst := by
    intro cs
    induction cs with
    | nil => intro acc h; exact h
    | cons c rest ih =>
      intro acc h
      exact ih _ (entryInv_processGroups hnil happ _ _ _ _ h)
  exact hgen _ _ (fun p hp => by simp at hp)

theorem entryInv_computeAssignments {Q : List Group → Prop} (hnil : Q [])
    (happ : ∀ v g, ¬ g.length < 5 → Q v → v.length < 5 → Q (v ++ [g]))
    (devs techs : List Row) :
    EntryInv Q (computeAssignments devs techs).fst := by
  have h1 := entryInv_phase1 hnil happ devs techs
  have h2 := entryInv_scanLeftover hnil (normTechs techs) (phase1 devs techs).fst h1
  have h3 := entryInv_phase2 hnil
    ((phase1 devs techs).snd.filter fun g => g.length == 5)
    (scanLeftover (phase1 devs techs).fst (normTechs techs)).fst
    (scanLeftover (phase1 devs techs).fst (normTechs techs)).snd
    (fun g hg v hv hlt => by
      have h5 : g.length = 5 := by
        have := List.of_mem_filter hg
        simpa using this
      exact happ v g (by omega) hv hlt) h2
  exact h3

theorem lookup_map_true {l : List String} {x : String} (hx : x ∈ l) :
    (l.map fun y => (y, (true : Bool))).lookup x = some true := by
  induction l with
  | nil => cases hx
  | cons y ys ih =>
    rw [List.map_cons, List.lookup]
    by_cases hxy : x == y
    · simp [hxy]
    · simp only [hxy, Bool.false_eq_true, if_neg, not_false_iff]
      rcases List.mem_cons.mp hx with h | h
      · exact absurd (by simp [h]) hxy
      · exact ih h

/-! ### Chunk structure lemmas -/

theorem mem_chunks {l : List Row} {g : Group} (h : g ∈ chunks l) :
    ∃ i, i < (l.length + 4) / 5 ∧ g = (l.drop (5 * i)).take 5 := by
  unfold chunks at h
  obtain ⟨i, hi, hg⟩ := List.mem_map.mp h
  exact ⟨i, List.mem_range.mp hi, hg.symm⟩

theorem chunks_length_le {l : List Row} {g : Group} (h : g ∈ chunks l) :
    g.length ≤ 5 := by
  obtain ⟨i, _, rfl⟩ := mem_chunks h
  exact List.length_take_le _ _

theorem mem_of_mem_chunks {l : List Row} {g : Group} {d : Row}
    (h : g ∈ chunks l) (hd : d ∈ g) : d ∈ l := by
  obtain ⟨i, _, rfl⟩ := mem_chunks h
  exact List.mem_of_mem_drop (List.mem_of_mem_take hd)

theorem chunks_cons {l : List Row} (h : l ≠ []) :
    chunks l = l.take 5 :: chunks (l.drop 5) := by
  have hlen : 1 ≤ l.length := List.length_pos.mpr h
  have h5 : (l.length + 4) / 5 = ((l.drop 5).length + 4) / 5 + 1 := by
    rw [List.length_drop]; omega
  have htail : List.map ((fun i => (l.drop (5 * i)).take 5) ∘ Nat.succ)
      (List.range (((l.drop 5).length + 4) / 5)) = chunks (l.drop 5) := by
    rw [chunks]
    apply List.map_congr_left
    intro i _
    simp only [Function.comp_apply]
    rw [List.drop_drop]
    congr 2
    omega
  rw [chunks, h5, List.range_succ_eq_map, List.map_cons, List.map_map, htail]
  simp

theorem chunks_flatten_fuel :
    ∀ (n : Nat) (l : List Row), l.length ≤ n → (chunks l).flatten = l := by
  intro n
  induction n with
  | zero =>
    intro l h
    have hnil : l = [] := List.eq_nil_of_length_eq_zero (Nat.le_zero.mp h)
    subst hnil; rfl
  | succ n ih =>
    intro l h
    cases l with
    | nil => rfl
    | cons d ds =>
      rw [chunks_cons (by simp), List.flatten_cons, ih _ (by
        rw [List.length_drop, List.length_cons]
        rw [List.length_cons] at h
        omega)]
      exact List.take_append_drop 5 _

theorem chunks_flatten (l : List Row) : (chunks l).flatten = l :=
  chunks_flatten_fuel l.length l le_rfl

theorem insertSorted_perm (s : String) (l : List String) :
    List.Perm (insertSorted s l) (s :: l) := by
  induction l with
  | nil => exact List.Perm.refl _
  | cons x xs ih =>
    rw [insertSorted]
    split
    · exact List.Perm.refl _
    · exact List.Perm.trans (List.Perm.cons x ih) (List.Perm.swap s x xs)

theorem sortStrings_perm (l : List String) : List.Perm (sortStrings l) l := by
  induction l with
  | nil => exact List.Perm.refl _
  | cons x xs ih =>
    have h1 : sortStrings (x :: xs) = insertSorted x (sortStrings xs) := rfl
    rw [h1]
    exact List.Perm.trans (insertSorted_perm x (sortStrings xs))
      (List.Perm.cons x ih)

theorem colleges_nodup (devs : List Row) : (colleges devs).Nodup :=
  ((sortStrings_perm _).nodup_iff).mpr (List.nodup_dedup _)

theorem aff_mem_colleges {devs : List Row} {d : Row} (hd : d ∈ normDevs devs) :
    d.affiliation ∈ colleges devs :=
  (sortStrings_perm _).mem_iff.mpr
    (List.mem_dedup.mpr (List.mem_map_of_mem _ hd))

theorem filter_beq_append_perm (c : String) (cs : List String) (hc : c ∉ cs) :
    ∀ l : List Row,
      List.Perm
        ((l.filter fun d => d.affiliation == c) ++
          (l.filter fun d => cs.contains d.affiliation))
        (l.filter fun d => (c :: cs).contains d.affiliation) := by
  intro l
  induction l with
  | nil => exact List.Perm.refl _
  | cons d ds ih =>
    by_cases h1 : d.affiliation = c
    · have hb : (d.affiliation == c) = true := beq_iff_eq.mpr h1
      have hcs : cs.contains d.affiliation = false := by
        cases hcc : cs.contains d.affiliation
        · rfl
        · exact absurd (h1 ▸ contains_iff_mem.mp hcc) hc
      have hccons : (c :: cs).contains d.affiliation = true :=
        contains_iff_mem.mpr (by rw [h1]; exact List.mem_cons_self _ _)
      simp only [List.filter_cons, hb, hcs, hccons, if_true, if_false,
        List.cons_append]
      exact List.Perm.cons d ih
    · have hb : (d.affiliation == c) = false := beq_eq_false_iff_ne.mpr h1
      cases h2 : cs.contains d.affiliation
      · have hccons : (c :: cs).contains d.affiliation = false := by
          cases hcc : (c :: cs).contains d.affiliation
          · rfl
          · rcases List.mem_cons.mp (contains_iff_mem.mp hcc) with h | h
            · exact absurd h h1
            · rw [contains_iff_mem.mpr h] at h2; cases h2
        simp only [List.filter_cons, hb, h2, hccons, if_false]
        exact ih
      · have hccons : (c :: cs).contains d.affiliation = true :=
          contains_iff_mem.mpr
            (List.mem_cons_of_mem _ (contains_iff_mem.mp h2))
        simp only [List.filter_cons, hb, h2, hccons, if_true, if_false]
        exact List.Perm.trans List.perm_middle (List.Perm.cons d ih)

theorem filter_partition_perm :
    ∀ (cs : List String), cs.Nodup → ∀ l : List Row,
      List.Perm ((cs.map fun c => l.filter fun d => d.affiliation == c).flatten)
        (l.filter fun d => cs.contains d.affiliation) := by
  intro cs
  induction cs with
  | nil =>
    intro _ l
    simp
  | cons c cs' ih =>
    intro hnd l
    rw [List.map_cons, List.flatten_cons]
    exact List.Perm.trans
      (List.Perm.append_left _ (ih (List.nodup_cons.mp hnd).2 l))
      (filter_beq_append_perm c cs' (List.nodup_cons.mp hnd).1 l)

theorem partitionGroups_flatten_eq (devs : List Row) :
    (partitionGroups devs).flatten =
      ((colleges devs).map fun c =>
        (normDevs devs).filter fun d => d.affiliation == c).flatten := by
  unfold partitionGroups
  generalize colleges devs = cs
  induction cs with
  | nil => rfl
  | cons c cs' ih =>
    rw [List.map_cons, List.map_cons, List.flatten_cons, List.flatten_cons,
      List.flatten_append, ih]
    congr 1
    exact chunks_flatten _

theorem partitionGroups_flatten_perm (devs : List Row) :
    List.Perm (partitionGroups devs).flatten (normDevs devs) := by
  rw [partitionGroups_flatten_eq]
  have h1 := filter_partition_perm (colleges devs) (colleges_nodup devs)
    (normDevs devs)
  have h2 : ((normDevs devs).filter fun d =>
      (colleges devs).contains d.affiliation) = normDevs devs := by
    rw [List.filter_eq_self]
    intro d hd
    exact contains_iff_mem.mpr (aff_mem_colleges hd)
  rw [h2] at h1
  exact h1

theorem norm_emails_eq (devs : List Row) :
    ((normDevs devs).map fun d => normalize d.email) =
      devs.map fun d => normalize d.email := by
  rw [normDevs, List.map_map]; rfl

theorem partition_emails_nodup (devs : List Row)
    (h : (devs.map fun d => normalize d.email).Nodup) :
    ((partitionGroups devs).flatten.map fun d => normalize d.email).Nodup := by
  have hN : ((normDevs devs).map fun d => normalize d.email).Nodup := by
    rw [norm_emails_eq]; exact h
  exact ((partitionGroups_flatten_perm devs).map _).nodup_iff.mpr hN

theorem partition_pairwise_disjoint (devs : List Row)
    (h : (devs.map fun d => normalize d.email).Nodup) :
    (partitionGroups devs).Pairwise fun g1 g2 =>
      (emailsOf g1).Disjoint (emailsOf g2) := by
  have h1 := partition_emails_nodup devs h
  rw [List.map_flatten] at h1
  have h2 := (List.nodup_flatten.mp h1).2
  exact List.pairwise_map.mp h2

theorem mem_chunks_ne_nil {l : List Row} {g : Group} (h : g ∈ chunks l) :
    g ≠ [] := by
  obtain ⟨i, hi, rfl⟩ := mem_chunks h
  intro hnil
  have hlen := congrArg List.length hnil
  rw [List.length_take, List.length_drop] at hlen
  simp only [List.length_nil] at hlen
  omega

theorem mem_partitionGroups_ne_nil {devs : List Row} {g : Group}
    (h : g ∈ partitionGroups devs) : g ≠ [] := by
  unfold partitionGroups at h
  obtain ⟨gs, hgs, hg⟩ := List.mem_flatten.mp h
  obtain ⟨c, _, rfl⟩ := List.mem_map.mp hgs
  exact mem_chunks_ne_nil hg

theorem partitionGroups_nodup (devs : List Row)
    (h : (devs.map fun d => normalize d.email).Nodup) :
    (partitionGroups devs).Nodup := by
  have hpw := partition_pairwise_disjoint devs h
  refine List.Pairwise.imp_of_mem (fun {g1 g2} hm1 hm2 hdisj => ?_) hpw
  intro heq
  obtain ⟨d, hd⟩ := List.exists_mem_of_ne_nil g1 (mem_partitionGroups_ne_nil hm1)
  have h1 : normalize d.email ∈ emailsOf g1 := List.mem_map_of_mem _ hd
  have h2 : normalize d.email ∈ emailsOf g2 := heq ▸ h1
  exact hdisj h1 h2

theorem partitionGroups_count_le_one (devs : List Row)
    (h : (devs.map fun d => normalize d.email).Nodup) (g : Group) :
    (partitionGroups devs).count g ≤ 1 :=
  count_le_one_of_nodup (partitionGroups_nodup devs h) g

/-! ### Counting assigned groups through the phases -/

theorem allGroupsOf_dGet (m : DMap) (k : String) :
    allGroupsOf (dGet m k).snd = allGroupsOf m := by
  unfold dGet
  cases hl : m.entries.lookup k with
  | some v => rfl
  | none => simp [allGroupsOf]

theorem cntG_dGet (m : DMap) (k : String) (x : Group) :
    cntG x (dGet m k).snd = cntG x m := by
  unfold cntG
  rw [allGroupsOf_dGet]

theorem lookup_append_of_none {es : List (String × List Group)} {k : String}
    (h : es.lookup k = none) (l2 : List (String × List Group)) :
    (es ++ l2).lookup k = l2.lookup k := by
  induction es with
  | nil => rfl
  | cons q rest ih =>
    obtain ⟨k1, v1⟩ := q
    rw [List.cons_append]
    cases hb : (k == k1)
    · rw [List.lookup] at h
      simp only [hb] at h
      rw [List.lookup]
      simp only [hb]
      exact ih h
    · rw [List.lookup] at h
      simp only [hb] at h
      cases h

theorem lookup_dGet_snd (m : DMap) (k : String) :
    ((dGet m k).snd).entries.lookup k = some ((dGet m k).fst) := by
  unfold dGet
  cases hl : m.entries.lookup k with
  | some v => exact hl
  | none =>
    show (m.entries ++ [(k, [])]).lookup k = some []
    rw [lookup_append_of_none hl, List.lookup]
    simp

theorem count_setEntry (k : String) (w : List Group) (x : Group) :
    ∀ es : List (String × List Group),
      (((setEntry k w es).map Prod.snd).flatten).count x +
          ((es.lookup k).getD []).count x
        = ((es.map Prod.snd).flatten).count x + w.count x := by
  intro es
  induction es with
  | nil => simp [setEntry]
  | cons q rest ih =>
    obtain ⟨k1, v1⟩ := q
    by_cases heq : k1 = k
    · subst heq
      simp only [setEntry, List.lookup, beq_self_eq_true, if_true,
        List.map_cons, List.flatten_cons, List.count_append, Option.getD_some]
      omega
    · have hb1 : (k1 == k) = false := beq_eq_false_iff_ne.mpr heq
      have hb2 : (k == k1) = false := beq_eq_false_iff_ne.mpr (Ne.symm heq)
      simp only [setEntry, List.lookup, hb1, hb2, Bool.false_eq_true, if_false,
        List.map_cons, List.flatten_cons, List.count_append]
      omega

theorem count_one_group (g x : Group) :
    [g].count x = (if g = x then 1 else 0) := by
  by_cases h : g = x
  · subst h; simp
  · rw [if_neg h]
    exact List.count_eq_zero.mpr (by
      intro hx
      exact h (List.mem_singleton.mp hx).symm)

theorem cntG_assign (m : DMap) (k : String) (g : Group) (x : Group) :
    cntG x (dSet (dGet m k).snd k ((dGet m k).fst ++ [g]))
      = cntG x m + (if g = x then 1 else 0) := by
  have hc := count_setEntry k ((dGet m k).fst ++ [g]) x ((dGet m k).snd).entries
  rw [lookup_dGet_snd] at hc
  simp only [Option.getD_some, List.count_append] at hc
  rw [count_one_group] at hc
  have h2 : ((((dGet m k).snd).entries.map Prod.snd).flatten).count x
      = cntG x m := cntG_dGet m k x
  rw [h2] at hc
  show (((setEntry k ((dGet m k).fst ++ [g])
      ((dGet m k).snd).entries).map Prod.snd).flatten).count x
    = cntG x m + (if g = x then 1 else 0)
  omega

theorem cntG_whileAssignGo (g : Group) :
    ∀ (rest : List Row) (ti : Nat) (m : DMap) (x : Group),
      cntG x (whileAssignGo g rest ti m).snd.snd
        = cntG x m +
          (if (whileAssignGo g rest ti m).fst = true ∧ g = x then 1 else 0) := by
  intro rest
  induction rest with
  | nil =>
    intro ti m x
    simp [whileAssignGo]
  | cons t rest ih =>
    intro ti m x
    rw [whileAssignGo]
    by_cases hlt : (dGet m t.email).fst.length < 5
    · simp only [hlt, if_pos]
      by_cases hgx : g = x
      · subst hgx; simp [cntG_assign m t.email g g]
      · simp [hgx, cntG_assign m t.email g x]
    · simp only [hlt, if_neg, not_false_iff]
      rw [ih (ti + 1) (dGet m t.email).snd x, cntG_dGet]

theorem cnt_processGroups_of_cons {t : Row} {ts : List Row} {allG : List Group} :
    ∀ (gs : List Group) (ti : Nat) (m : DMap) (lo : List Group) (x : Group),
      cntG x (processGroups (t :: ts) allG gs ti m lo).fst
        + ((processGroups (t :: ts) allG gs ti m lo).snd).count x
        = cntG x m + lo.count x + gs.count x := by
  intro gs
  induction gs with
  | nil => intro ti m lo x; simp [processGroups]
  | cons g rest ih =>
    intro ti m lo x
    rw [processGroups]
    by_cases hlen : g.length < 5
    · simp only [hlen, if_pos]
      have hrec := ih ti m (lo ++ [g]) x
      by_cases hgx : g = x <;>
        simp [List.count_cons, List.count_append, hgx] at hrec ⊢ <;> omega
    · simp only [hlen, if_neg, not_false_iff]
      rcases hass : whileAssign (t :: ts) g ti m with ⟨a, ti', m'⟩
      have hw := cntG_whileAssignGo g (List.drop ti (t :: ts)) ti m x
      have hassGo : whileAssignGo g (List.drop ti (t :: ts)) ti m = (a, ti', m') :=
        hass
      rw [hassGo] at hw
      have hw' : cntG x m' = cntG x m + (if a = true ∧ g = x then 1 else 0) := hw
      cases a with
      | true =>
        have hrec := ih ti' m' lo x
        show cntG x (processGroups (t :: ts) allG rest ti' m' lo).fst
            + ((processGroups (t :: ts) allG rest ti' m' lo).snd).count x
          = cntG x m + lo.count x + ((g :: rest).count x)
        by_cases hgx : g = x <;>
          simp [List.count_cons, hgx] at hw' hrec ⊢ <;> omega
      | false =>
        have hrec := ih ti' m' (lo ++ [g]) x
        show cntG x (processGroups (t :: ts) allG rest ti' m' (lo ++ [g])).fst
            + ((processGroups (t :: ts) allG rest ti' m' (lo ++ [g])).snd).count x
          = cntG x m + lo.count x + ((g :: rest).count x)
        by_cases hgx : g = x <;>
          simp [List.count_cons, List.count_append, hgx] at hw' hrec ⊢ <;> omega

theorem cnt_processGroups_nil_techs {allG : List Group}
    (hshort : ∀ g ∈ allG.dropLast, ¬ g.length < 5)
    (m : DMap) (lo : List Group) (x : Group) :
    cntG x (processGroups [] allG allG 0 m lo).fst
      + ((processGroups [] allG allG 0 m lo).snd).count x
      = cntG x m + lo.count x + allG.count x := by
  cases allG with
  | nil => simp [processGroups]
  | cons g rest =>
    rw [processGroups]
    by_cases hlen : g.length < 5
    · cases rest with
      | nil =>
        simp only [hlen, if_pos]
        show cntG x m + ((lo ++ [g]).count x)
          = cntG x m + lo.count x + ([g].count x)
        rw [List.count_append]
        omega
      | cons g2 rest2 =>
        exact absurd hlen (hshort g
          (by rw [List.dropLast_cons₂]; exact List.mem_cons_self _ _))
    · simp only [hlen, if_neg, not_false_iff]
      show cntG x m + ((lo ++ g :: rest).count x)
        = cntG x m + lo.count x + ((g :: rest).count x)
      rw [List.count_append]
      omega

theorem cnt_processGroups_total (techsC : List Row) (allG : List Group)
    (hshort : ∀ g ∈ allG.dropLast, ¬ g.length < 5)
    (m : DMap) (lo : List Group) (x : Group) :
    cntG x (processGroups techsC allG allG 0 m lo).fst
      + ((processGroups techsC allG allG 0 m lo).snd).count x
      = cntG x m + lo.count x + allG.count x := by
  cases techsC with
  | nil => exact cnt_processGroups_nil_techs hshort m lo x
  | cons t ts => exact cnt_processGroups_of_cons allG 0 m lo x

theorem chunks_dropLast_complete {l : List Row} {g : Group}
    (h : g ∈ (chunks l).dropLast) : ¬ g.length < 5 := by
  unfold chunks at h
  cases hn : (l.length + 4) / 5 with
  | zero => rw [hn] at h; simp at h
  | succ n =>
    rw [hn, List.range_succ, List.map_append] at h
    simp only [List.map_cons, List.map_nil] at h
    rw [List.dropLast_concat] at h
    obtain ⟨i, hi, rfl⟩ := List.mem_map.mp h
    have hin : i < n := List.mem_range.mp hi
    intro hlen
    rw [List.length_take, List.length_drop] at hlen
    omega

theorem cntG_scanLeftover : ∀ (ts : List Row) (m : DMap) (x : Group),
    cntG x (scanLeftover m ts).fst = cntG x m := by
  intro ts
  induction ts with
  | nil => intro m x; rfl
  | cons t rest ih =>
    intro m x
    rw [scanLeftover]
    by_cases hlt : (dGet m (normalize t.email)).fst.length < 5
    · simp only [hlt, if_pos]
      show cntG x (scanLeftover (dGet m (normalize t.email)).snd rest).fst
        = cntG x m
      rw [ih, cntG_dGet]
    · simp only [hlt, if_neg, not_false_iff]
      show cntG x (scanLeftover (dGet m (normalize t.email)).snd rest).fst
        = cntG x m
      rw [ih, cntG_dGet]

theorem cntG_phase2Group_le (g : Group) :
    ∀ (rem : List String) (m : DMap) (lts : List String) (x : Group),
      cntG x (phase2Group g m lts rem).fst
        ≤ cntG x m + (if g = x then 1 else 0) := by
  intro rem
  induction rem with
  | nil => intro m lts x; simp [phase2Group]
  | cons e rest ih =>
    intro m lts x
    rw [phase2Group]
    by_cases hlt : (dGet m e).fst.length < 5
    · simp only [hlt, if_pos]
      by_cases h5 : ((dGet m e).fst.length + 1 == 5)
      · simp only [h5, if_pos]
        show cntG x (dSet (dGet m e).snd e ((dGet m e).fst ++ [g])) ≤ _
        rw [cntG_assign]
      · simp only [h5, Bool.false_eq_true, if_neg, not_false_iff]
        show cntG x (dSet (dGet m e).snd e ((dGet m e).fst ++ [g])) ≤ _
        rw [cntG_assign]
    · simp only [hlt, if_neg, not_false_iff]
      calc cntG x (phase2Group g (dGet m e).snd lts rest).fst
          ≤ cntG x (dGet m e).snd + (if g = x then 1 else 0) := ih _ _ x
        _ = cntG x m + (if g = x then 1 else 0) := by rw [cntG_dGet]

theorem cntG_phase2_le : ∀ (gs : List Group) (m : DMap) (lts : List String)
    (x : Group), cntG x (phase2 gs m lts).fst ≤ cntG x m + gs.count x := by
  intro gs
  induction gs with
  | nil => intro m lts x; simp [phase2]
  | cons g rest ih =>
    intro m lts x
    rw [phase2]
    rcases hpg : phase2Group g m lts lts with ⟨m', lts'⟩
    have h1 : cntG x m' ≤ cntG x m + (if g = x then 1 else 0) := by
      have := cntG_phase2Group_le g lts m lts x
      rwa [hpg] at this
    have h2 := ih m' lts' x
    by_cases hgx : g = x <;>
      simp [List.count_cons, hgx] at h1 h2 ⊢ <;> omega

theorem count_filter_le_count (p : Group → Bool) (l : List Group) (x : Group) :
    (l.filter p).count x ≤ l.count x := by
  induction l with
  | nil => simp
  | cons g rest ih =>
    rw [List.filter_cons]
    by_cases hp : p g
    · rw [if_pos hp, List.count_cons, List.count_cons]
      omega
    · rw [if_neg hp, List.count_cons]
      omega

theorem cnt_phase1 (devs techs : List Row) (x : Group) :
    cntG x (phase1 devs techs).fst + ((phase1 devs techs).snd).count x
      = (partitionGroups devs).count x := by
  unfold phase1 partitionGroups
  have hgen : ∀ (cs : List String) (acc : DMap × List Group),
      cntG x ((cs.foldl (fun acc c =>
          processGroups (collegeTechs techs c) (collegeGroups devs c)
            (collegeGroups devs c) 0 acc.fst acc.snd) acc)).fst
        + ((cs.foldl (fun acc c =>
            processGroups (collegeTechs techs c) (collegeGroups devs c)
              (collegeGroups devs c) 0 acc.fst acc.snd) acc)).snd.count x
        = cntG x acc.fst + acc.snd.count x
          + ((cs.map fun c => collegeGroups devs c).flatten).count x := by
    intro cs
    induction cs with
    | nil => intro acc; simp
    | cons c cs' ih =>
      intro acc
      rw [List.foldl_cons, List.map_cons, List.flatten_cons, List.count_append,
        ih]
      have hshort : ∀ g ∈ (collegeGroups devs c).dropLast, ¬ g.length < 5 :=
        fun g hg => chunks_dropLast_complete hg
      have hc := cnt_processGroups_total (collegeTechs techs c)
        (collegeGroups devs c) hshort acc.fst acc.snd x
      omega
  have hfin := hgen (colleges devs) (⟨[]⟩, [])
  simpa [cntG, allGroupsOf] using hfin

/-! ### Claim theorems -/

/-- C2: for every input roster and every tech lead, the number of groups
assigned to that tech lead by compute_assignments (after both phase 1
and phase 2) is at most 5. -/
theorem claim2_capacity_at_most_five (devs techs : List Row)
    (p : String × List Group)
    (hp : p ∈ (computeAssignments devs techs).fst.entries) :
    p.snd.length ≤ 5 :=
  entryInv_computeAssignments (Q := fun v => v.length ≤ 5) (by simp)
    (fun v g _ hv hlt => by
      show (v ++ [g]).length ≤ 5
      rw [List.length_append]; simp only [List.length_singleton]; omega)
    devs techs p hp

theorem claim2_witness :
    ("l@x", ([] : List Group)) ∈ (computeAssignments [] [wLead]).fst.entries ∧
    (("l@x", ([] : List Group)) : String × List Group).snd.length ≤ 5 :=
  ⟨by decide, claim2_capacity_at_most_five [] [wLead] _ (by decide)⟩

/-- C6: a group with fewer than 5 interns (an incomplete final chunk) is
never assigned to any tech lead, by either phase 1 or phase 2. -/
theorem claim6_no_incomplete_group_assigned (devs techs : List Row)
    (p : String × List Group)
    (hp : p ∈ (computeAssignments devs techs).fst.entries)
    (g : Group) (hg : g ∈ p.snd) : ¬ g.length < 5 :=
  entryInv_computeAssignments (Q := fun v => ∀ g' ∈ v, ¬ g'.length < 5)
    (by simp)
    (fun v g hglen _ _ => by
      intro g' hg'
      rcases List.mem_append.mp hg' with h | h
      · exact ‹∀ g' ∈ v, ¬ g'.length < 5› g' h
      · rw [List.mem_singleton.mp h]; exact hglen)
    devs techs p hp g hg

theorem claim6_witness :
    ("l@x", [normDevs wDevs]) ∈ (computeAssignments wDevs [wLead]).fst.entries ∧
    normDevs wDevs ∈ [normDevs wDevs] ∧ ¬ (normDevs wDevs).length < 5 :=
  ⟨by decide, by decide,
    claim6_no_incomplete_group_assigned wDevs [wLead]
      ("l@x", [normDevs wDevs]) (by decide) (normDevs wDevs) (by decide)⟩

/-- C10: with no persisted status table, initialization maps every
roster intern's normalized email to Active (true), and a status lookup
of an email missing from the table defaults to Active. -/
theorem claim10_status_defaults_active (devs : List Row) (d : Row)
    (hd : d ∈ devs) (e : String)
    (he : (initInternStatuses devs).lookup e = none) :
    (initInternStatuses devs).lookup (normalize d.email) = some true ∧
    statusLookup (initInternStatuses devs) e = true := by
  constructor
  · exact lookup_map_true (List.mem_dedup.mpr
      (List.mem_map_of_mem (fun d => normalize d.email) hd))
  · rw [statusLookup, he]; rfl

theorem claim10_witness :
    (⟨"Ann", "x", "f", "1", "a@x"⟩ : Row) ∈ wDevs ∧
    (initInternStatuses wDevs).lookup "z@x" = none ∧
    ((initInternStatuses wDevs).lookup
        (normalize (⟨"Ann", "x", "f", "1", "a@x"⟩ : Row).email) = some true ∧
      statusLookup (initInternStatuses wDevs) "z@x" = true) :=
  ⟨by decide, by decide,
    claim10_status_defaults_active wDevs _ (by decide) "z@x" (by decide)⟩

/-- C7: with 12 interns of affiliation "x" and one tech lead of that
affiliation, the lead receives exactly 2 groups of 5, and the remaining
2 interns are unassigned. -/
theorem claim7_example_twelve_interns :
    ((computeAssignments devs12 [wLead]).fst.entries.map fun p =>
        (p.fst, p.snd.map fun g => g.length)) = [("l@x", [5, 5])] ∧
    (computeAssignments devs12 [wLead]).snd.fst.length = 2 := by decide

/-! ### Key membership: every tech-lead email becomes a key -/

theorem mem_keys_dGet {m : DMap} {k k' : String} (h : k' ∈ keysOf m) :
    k' ∈ keysOf (dGet m k).snd := by
  unfold dGet
  cases hl : m.entries.lookup k with
  | some v => exact h
  | none =>
    show k' ∈ (m.entries ++ [(k, [])]).map Prod.fst
    rw [List.map_append]
    exact List.mem_append_left _ h

theorem lookup_some_key {es : List (String × List Group)} {k : String}
    {v : List Group} (h : es.lookup k = some v) : k ∈ es.map Prod.fst := by
  induction es with
  | nil => simp [List.lookup] at h
  | cons q rest ih =>
    obtain ⟨k', v'⟩ := q
    rw [List.lookup] at h
    split at h
    · rename_i hbeq
      rw [List.map_cons]
      exact List.mem_cons.mpr (Or.inl (eq_of_beq hbeq))
    · exact List.mem_cons_of_mem _ (ih h)

theorem self_mem_keys_dGet (m : DMap) (k : String) :
    k ∈ keysOf (dGet m k).snd := by
  unfold dGet
  cases hl : m.entries.lookup k with
  | some v => exact lookup_some_key hl
  | none =>
    show k ∈ (m.entries ++ [(k, [])]).map Prod.fst
    rw [List.map_append]
    exact List.mem_append_right _ (by simp)

theorem mem_keys_dSet {m : DMap} {k k' : String} {v : List Group}
    (h : k' ∈ keysOf m) : k' ∈ keysOf (dSet m k v) := by
  show k' ∈ (setEntry k v m.entries).map Prod.fst
  have hgen : ∀ es : List (String × List Group),
      k' ∈ es.map Prod.fst → k' ∈ (setEntry k v es).map Prod.fst := by
    intro es
    induction es with
    | nil => intro h'; cases h'
    | cons q rest ih =>
      obtain ⟨k1, v1⟩ := q
      intro h'
      rw [setEntry]
      split
      · rename_i hbeq
        rcases List.mem_cons.mp h' with h' | h'
        · simp only [List.map_cons, List.mem_cons]
          exact Or.inl (h' ▸ (eq_of_beq hbeq).symm ▸ rfl)
        · exact List.mem_cons_of_mem _ h'
      · rcases List.mem_cons.mp h' with h' | h'
        · rw [List.map_cons]; exact h' ▸ List.mem_cons_self _ _
        · exact List.mem_cons_of_mem _ (ih h')
  exact hgen m.entries h

theorem mem_keys_whileAssignGo {g : Group} {k : String} :
    ∀ (rest : List Row) (ti : Nat) (m : DMap), k ∈ keysOf m →
      k ∈ keysOf (whileAssignGo g rest ti m).snd.snd := by
  intro rest
  induction rest with
  | nil => intro ti m hm; exact hm
  | cons t rest ih =>
    intro ti m hm
    rw [whileAssignGo]
    by_cases hlt : (dGet m t.email).fst.length < 5
    · simp only [hlt, if_pos]
      exact mem_keys_dSet (mem_keys_dGet hm)
    · simp only [hlt, if_neg, not_false_iff]
      exact ih _ _ (mem_keys_dGet hm)

theorem mem_keys_processGroups {techsC : List Row} {allG : List Group}
    {k : String} :
    ∀ (gs : List Group) (ti : Nat) (m : DMap) (lo : List Group),
      k ∈ keysOf m → k ∈ keysOf (processGroups techsC allG gs ti m lo).fst := by
  intro gs
  induction gs with
  | nil => intro ti m lo hm; exact hm
  | cons g rest ih =>
    intro ti m lo hm
    rw [processGroups]
    by_cases hlen : g.length < 5
    · simp only [hlen, if_pos]; exact ih _ _ _ hm
    · simp only [hlen, if_neg, not_false_iff]
      by_cases hte : techsC.isEmpty
      · simp only [hte, if_pos]; exact hm
      · simp only [hte, Bool.false_eq_true, if_neg, not_false_iff]
        have hw := mem_keys_whileAssignGo (g := g) (techsC.drop ti) ti m hm
        rcases hass : whileAssign techsC g ti m with ⟨a, ti', m'⟩
        rw [whileAssign] at hass
        rw [hass] at hw
        cases a with
        | true => simpa using ih _ _ _ hw
        | false => simpa using ih _ _ _ hw

theorem mem_keys_scanLeftover {k : String} :
    ∀ (ts : List Row) (m : DMap), k ∈ keysOf m →
      k ∈ keysOf (scanLeftover m ts).fst := by
  intro ts
  induction ts with
  | nil => intro m hm; exact hm
  | cons t rest ih =>
    intro m hm
    rw [scanLeftover]
    by_cases hlt : (dGet m (normalize t.email)).fst.length < 5 <;>
      simp only [hlt, if_pos, if_neg, not_false_iff] <;>
      exact ih _ (mem_keys_dGet hm)

theorem techs_mem_keys_scanLeftover :
    ∀ (ts : List Row) (m : DMap) (t : Row), t ∈ ts →
      normalize t.email ∈ keysOf (scanLeftover m ts).fst := by
  intro ts
  induction ts with
  | nil => intro m t ht; cases ht
  | cons t0 rest ih =>
    intro m t ht
    rw [scanLeftover]
    rcases List.mem_cons.mp ht with h | h
    · subst h
      have h1 : normalize t.email ∈ keysOf (dGet m (normalize t.email)).snd :=
        self_mem_keys_dGet m (normalize t.email)
      by_cases hlt : (dGet m (normalize t.email)).fst.length < 5 <;>
        simp only [hlt, if_pos, if_neg, not_false_iff] <;>
        exact mem_keys_scanLeftover _ _ h1
    · by_cases hlt : (dGet m (normalize t0.email)).fst.length < 5 <;>
        simp only [hlt, if_pos, if_neg, not_false_iff] <;>
        exact ih _ _ h

theorem mem_keys_phase2Group {g : Group} {k : String} :
    ∀ (rem : List String) (m : DMap) (lts : List String), k ∈ keysOf m →
      k ∈ keysOf (phase2Group g m lts rem).fst := by
  intro rem
  induction rem with
  | nil => intro m lts hm; exact hm
  | cons e rest ih =>
    intro m lts hm
    rw [phase2Group]
    by_cases hlt : (dGet m e).fst.length < 5
    · simp only [hlt, if_pos]
      by_cases h5 : (dGet m e).fst.length + 1 == 5 <;>
        simp only [h5, if_pos, if_neg, Bool.false_eq_true, not_false_iff] <;>
        exact mem_keys_dSet (mem_keys_dGet hm)
    · simp only [hlt, if_neg, not_false_iff]
      exact ih _ _ (mem_keys_dGet hm)

theorem mem_keys_phase2 {k : String} :
    ∀ (gs : List Group) (m : DMap) (lts : List String), k ∈ keysOf m →
      k ∈ keysOf (phase2 gs m lts).fst := by
  intro gs
  induction gs with
  | nil => intro m lts hm; exact hm
  | cons g rest ih =>
    intro m lts hm
    rw [phase2]
    rcases hpg : phase2Group g m lts lts with ⟨m', lts'⟩
    have h1 : k ∈ keysOf m' := by
      have := mem_keys_phase2Group (g := g) lts m lts hm
      rwa [hpg] at this
    exact ih _ _ h1

theorem tech_mem_keys_computeAssignments (devs techs : List Row) (t : Row)
    (ht : t ∈ normTechs techs) :
    normalize t.email ∈ keysOf (computeAssignments devs techs).fst := by
  have h1 : normalize t.email ∈
      keysOf (scanLeftover (phase1 devs techs).fst (normTechs techs)).fst :=
    techs_mem_keys_scanLeftover _ _ _ ht
  exact mem_keys_phase2 _ _ _ h1

/-- C9: the unassigned-tech-leads output is always empty — the phase-2
eligibility scan (line 86) reads the defaultdict at every tech-lead
email, inserting each one as a key, so the line-117 filter over
`assignments.keys()` removes every tech lead. -/
theorem claim9_unassigned_techs_always_empty (devs techs : List Row) :
    (computeAssignments devs techs).snd.snd = [] ∧
    ∀ t ∈ normTechs techs,
      normalize t.email ∈ keysOf (computeAssignments devs techs).fst := by
  constructor
  · show (normTechs techs).filter _ = []
    rw [List.filter_eq_nil_iff]
    intro t ht hpred
    have hk := tech_mem_keys_computeAssignments devs techs t ht
    have hpred' : (!(keysOf (computeAssignments devs techs).fst).contains
        (normalize t.email)) = true := hpred
    rw [contains_iff_mem.mpr hk] at hpred'
    simp at hpred'
  · exact fun t ht => tech_mem_keys_computeAssignments devs techs t ht

theorem claim9_witness :
    (computeAssignments [] [wLead]).snd.snd = [] ∧
    normalize (normTech wLead).email ∈
      keysOf (computeAssignments [] [wLead]).fst :=
  ⟨(claim9_unassigned_techs_always_empty [] [wLead]).1,
    (claim9_unassigned_techs_always_empty [] [wLead]).2 (normTech wLead)
      (by decide)⟩

/-- C8 counterexample: with no developers and a single tech lead, the
lead receives zero groups, yet the lookup does not report "not found"
(its email is a key of the assignments map). -/
theorem claim8_counterexample :
    (computeAssignments [] [wLead]).fst.entries = [("l@x", [])] ∧
    lookupNotFound (computeAssignments [] [wLead]).fst "l@x" = false := by
  decide

/-- C8 (amended): the lookup reports "not found" exactly when the email
is not a key of the assignments map; every tech-lead email is such a
key, so a tech lead that received zero groups is still reported as
found. -/
theorem claim8_not_found_iff_no_key (devs techs : List Row) (t : Row)
    (ht : t ∈ normTechs techs) :
    lookupNotFound (computeAssignments devs techs).fst (normalize t.email)
        = false ∧
    ∀ e, lookupNotFound (computeAssignments devs techs).fst e = true ↔
      e ∉ keysOf (computeAssignments devs techs).fst := by
  constructor
  · have hk := tech_mem_keys_computeAssignments devs techs t ht
    have hc : (keysOf (computeAssignments devs techs).fst).contains
        (normalize t.email) = true := contains_iff_mem.mpr hk
    rw [lookupNotFound, hc]
    rfl
  · intro e
    cases hc : (keysOf (computeAssignments devs techs).fst).contains e
    · have hne : e ∉ keysOf (computeAssignments devs techs).fst := by
        intro hmem
        rw [contains_iff_mem.mpr hmem] at hc
        cases hc
      exact ⟨fun _ => hne, fun _ => by rw [lookupNotFound, hc]; rfl⟩
    · have hmem := contains_iff_mem.mp hc
      refine ⟨fun h => ?_, fun h => absurd hmem h⟩
      rw [lookupNotFound, hc] at h
      cases h

theorem claim8_witness :
    normTech wLead ∈ normTechs [wLead] ∧
    (lookupNotFound (computeAssignments [] [wLead]).fst
        (normalize (normTech wLead).email) = false ∧
      ∀ e, lookupNotFound (computeAssignments [] [wLead]).fst e = true ↔
        e ∉ keysOf (computeAssignments [] [wLead]).fst) :=
  ⟨by decide, claim8_not_found_iff_no_key [] [wLead] (normTech wLead) (by decide)⟩

/-- C3: every intern of the developer roster ends up in exactly one of
the two outputs: either their normalized email occurs in a group held by
some tech lead, or their (affiliation-normalized) row is in the
unassigned-interns list. -/
theorem claim3_each_intern_exactly_one (devs techs : List Row) (d : Row)
    (hd : d ∈ devs) :
    (normalize d.email ∈ assignedEmails (computeAssignments devs techs).fst ∧
      normAff d ∉ (computeAssignments devs techs).snd.fst) ∨
    (normalize d.email ∉ assignedEmails (computeAssignments devs techs).fst ∧
      normAff d ∈ (computeAssignments devs techs).snd.fst) := by
  have hmemN : normAff d ∈ normDevs devs := List.mem_map_of_mem normAff hd
  have hsnd : (computeAssignments devs techs).snd.fst =
      (normDevs devs).filter fun d' =>
        !((assignedEmails (computeAssignments devs techs).fst).contains
          (normalize d'.email)) := rfl
  by_cases hmem :
      normalize d.email ∈ assignedEmails (computeAssignments devs techs).fst
  · left
    refine ⟨hmem, fun hin => ?_⟩
    rw [hsnd] at hin
    have hpred := (List.mem_filter.mp hin).2
    have hc : (assignedEmails (computeAssignments devs techs).fst).contains
        (normalize d.email) = true := contains_iff_mem.mpr hmem
    have hpred' : (!(assignedEmails (computeAssignments devs techs).fst).contains
        (normalize d.email)) = true := hpred
    rw [hc] at hpred'
    simp at hpred'
  · right
    refine ⟨hmem, ?_⟩
    rw [hsnd]
    refine List.mem_filter.mpr ⟨hmemN, ?_⟩
    have hc : (assignedEmails (computeAssignments devs techs).fst).contains
        (normalize d.email) = false := by
      cases hc' : (assignedEmails (computeAssignments devs techs).fst).contains
          (normalize d.email)
      · rfl
      · exact absurd (contains_iff_mem.mp hc') hmem
    show (!(assignedEmails (computeAssignments devs techs).fst).contains
        (normalize d.email)) = true
    rw [hc]
    rfl

theorem claim3_witness :
    (⟨"Ann", "x", "f", "1", "a@x"⟩ : Row) ∈ wDevs ∧
    ((normalize (⟨"Ann", "x", "f", "1", "a@x"⟩ : Row).email ∈
        assignedEmails (computeAssignments wDevs [wLead]).fst ∧
      normAff ⟨"Ann", "x", "f", "1", "a@x"⟩ ∉
        (computeAssignments wDevs [wLead]).snd.fst) ∨
    (normalize (⟨"Ann", "x", "f", "1", "a@x"⟩ : Row).email ∉
        assignedEmails (computeAssignments wDevs [wLead]).fst ∧
      normAff ⟨"Ann", "x", "f", "1", "a@x"⟩ ∈
        (computeAssignments wDevs [wLead]).snd.fst)) :=
  ⟨by decide, claim3_each_intern_exactly_one wDevs [wLead] _ (by decide)⟩

/-- C5: every complete group the partitioner forms for an affiliation
has exactly 5 interns, all of that affiliation. -/
theorem claim5_complete_groups (devs : List Row) (c : String) (g : Group)
    (hg : g ∈ collegeGroups devs c) (hcomplete : ¬ g.length < 5) :
    g.length = 5 ∧ ∀ d ∈ g, d.affiliation = c := by
  constructor
  · have := chunks_length_le hg
    omega
  · intro d hd
    have hdl : d ∈ (normDevs devs).filter fun d' => d'.affiliation == c :=
      mem_of_mem_chunks hg hd
    have hbeq : (d.affiliation == c) = true := (List.mem_filter.mp hdl).2
    exact eq_of_beq hbeq

theorem claim5_witness :
    normDevs wDevs ∈ collegeGroups wDevs "x" ∧
    ¬ (normDevs wDevs).length < 5 ∧
    ((normDevs wDevs).length = 5 ∧ ∀ d ∈ normDevs wDevs, d.affiliation = "x") :=
  ⟨by decide, by decide,
    claim5_complete_groups wDevs "x" (normDevs wDevs) (by decide) (by decide)⟩

/-- C4: when the roster's normalized emails are pairwise distinct (the
data model's identity assumption for interns), no intern appears in more
than one partitioner group, and no group occurs more than once among all
groups held by tech leads in the final assignment. -/
theorem claim4_no_shared_interns_or_groups (devs techs : List Row)
    (h : (devs.map fun d => normalize d.email).Nodup) :
    ((partitionGroups devs).Pairwise fun g1 g2 =>
      (emailsOf g1).Disjoint (emailsOf g2)) ∧
    ∀ g : Group,
      (allGroupsOf (computeAssignments devs techs).fst).count g ≤ 1 := by
  refine ⟨partition_pairwise_disjoint devs h, fun g => ?_⟩
  show cntG g (computeAssignments devs techs).fst ≤ 1
  have hfin : (computeAssignments devs techs).fst
      = (phase2 ((phase1 devs techs).snd.filter fun g' => g'.length == 5)
          (scanLeftover (phase1 devs techs).fst (normTechs techs)).fst
          (scanLeftover (phase1 devs techs).fst (normTechs techs)).snd).fst :=
    rfl
  rw [hfin]
  have h1 := cntG_phase2_le
    ((phase1 devs techs).snd.filter fun g' => g'.length == 5)
    (scanLeftover (phase1 devs techs).fst (normTechs techs)).fst
    (scanLeftover (phase1 devs techs).fst (normTechs techs)).snd g
  have h2 := cntG_scanLeftover (normTechs techs) (phase1 devs techs).fst g
  have h3 := count_filter_le_count (fun g' => g'.length == 5)
    (phase1 devs techs).snd g
  have h4 := cnt_phase1 devs techs g
  have h5 := partitionGroups_count_le_one devs h g
  omega

theorem claim4_witness :
    ((wDevs.map fun d => normalize d.email).Nodup) ∧
    (((partitionGroups wDevs).Pairwise fun g1 g2 =>
        (emailsOf g1).Disjoint (emailsOf g2)) ∧
      ∀ g : Group,
        (allGroupsOf (computeAssignments wDevs [wLead]).fst).count g ≤ 1) :=
  ⟨by decide, claim4_no_shared_interns_or_groups wDevs [wLead] (by decide)⟩

/-- C1: on a roster with no developers and one tech lead, that lead
receives zero groups yet the unassigned-tech-leads output is empty —
the defaultdict access on line 86 inserts every tech-lead email into
`assignments`, so line 117 filters every lead out. -/
theorem claim1_zero_group_lead_not_listed :
    (computeAssignments [] [wLead]).fst.entries = [("l@x", [])] ∧
    (computeAssignments [] [wLead]).snd.snd = [] := by decide

end TechleadApp
